import Mathlib

/-!
Verification of the tower-cache core: the `Transform` trait
(src/transform.rs), the provider protocol, and the LRU provider
(src/lru.rs) of the `tower-cache` crate.

The LRU provider delegates its storage to an external LRU map
(`lru::LruCache`); that map's behaviour, together with the crate-root
request/response enums, is modelled from the specification, while
`LruProvider::new`, `Service::call` for `LruProvider`, and the two
`Transform` implementations are embedded directly from the source.
-/

namespace TowerCache

/-- Modelled from the spec: `ProviderRequest<K, V>` is a tagged union over
`Get(key)` and `Insert(key, value)`; the enum is declared in the crate
root, which is not among the provided source files. -/
inductive ProviderRequest (K V : Type) where
  | Get (key : K)
  | Insert (key : K) (value : V)
deriving DecidableEq

/-- Modelled from the spec: `ProviderResponse<V>` is a tagged union over
`Found(value)` and `NotFound`; the enum is declared in the crate root,
which is not among the provided source files. -/
inductive ProviderResponse (V : Type) where
  | Found (value : V)
  | NotFound
deriving DecidableEq

/-- Whether a response is a `Found`. -/
def ProviderResponse.isFound : ProviderResponse V → Bool
  | .Found _ => true
  | .NotFound => false

/-- Modelled from the spec: the state of the external `lru::LruCache`
used by `LruProvider` (src/lru.rs). A fixed-capacity map whose entries
are kept in recency order, most recently used first; the capacity is
fixed at construction. -/
structure LruCache (K V : Type) where
  cap : Nat
  entries : List (K × V)

/-- Association-list lookup on the recency-ordered entry list. -/
def lookup [DecidableEq K] (k : K) : List (K × V) → Option V
  | [] => none
  | (k', v) :: rest => if k' = k then some v else lookup k rest

/-- Remove every entry with the given key from the entry list. -/
def removeKey [DecidableEq K] (k : K) : List (K × V) → List (K × V)
  | [] => []
  | (k', v) :: rest =>
      if k' = k then removeKey k rest else (k', v) :: removeKey k rest

/-- Modelled from the spec: `LruCache::new(capacity)` builds an empty
store with the given capacity. -/
def LruCache.new (K V : Type) (capacity : Nat) : LruCache K V :=
  ⟨capacity, []⟩

/-- Modelled from the spec: `LruCache::get(&key)` looks the key up; on a
hit it marks the entry most-recently-used (moves it to the front of the
recency order) and returns its value, on a miss it leaves the store
unchanged. -/
def LruCache.get [DecidableEq K] (c : LruCache K V) (k : K) :
    Option V × LruCache K V :=
  match lookup k c.entries with
  | some v => (some v, ⟨c.cap, (k, v) :: removeKey k c.entries⟩)
  | none => (none, c)

/-- Modelled from the spec: `LruCache::put(key, value)` writes or
overwrites the entry for the key, marks it most-recently-used, and if
the store now exceeds its capacity evicts least-recently-used entries
(the tail of the recency order) down to capacity. -/
def LruCache.put [DecidableEq K] (c : LruCache K V) (k : K) (v : V) :
    LruCache K V :=
  ⟨c.cap, ((k, v) :: removeKey k c.entries).take c.cap⟩

/-- `LruProvider::new(capacity)` (src/lru.rs): wraps a fresh
`LruCache::new(capacity)` behind the shared handle; the capacity
argument is passed through unvalidated. -/
def LruProvider.new (K V : Type) (capacity : Nat) : LruCache K V :=
  LruCache.new K V capacity

/-- `Service::call` for `LruProvider` (src/lru.rs), the pure content of
the returned future: a `Get` consults `LruCache::get` and answers
`Found`/`NotFound`; an `Insert` performs `LruCache::put` and echoes
`Found(value)`. Returns the response and the updated store. -/
def LruProvider.call [DecidableEq K] (s : LruCache K V) :
    ProviderRequest K V → ProviderResponse V × LruCache K V
  | .Get key =>
      match s.get key with
      | (some value, s') => (.Found value, s')
      | (none, s') => (.NotFound, s')
  | .Insert key value => (.Found value, s.put key value)

/-- `Infallible` (std::convert::Infallible): the uninhabited error type
used as `Service::Error` for `LruProvider` (src/lru.rs). -/
inductive Infallible : Type

/-- `Service::call` for `LruProvider` as seen by the caller: the source
wraps the computed response in `Ok` (`ready(Ok(match ...))`), so the
result channel is `Result<ProviderResponse<V>, Infallible>`. -/
def LruProvider.callService [DecidableEq K] (s : LruCache K V)
    (req : ProviderRequest K V) :
    Except Infallible (ProviderResponse V) × LruCache K V :=
  (Except.ok (LruProvider.call s req).1, (LruProvider.call s req).2)

/-- Run a sequence of provider requests from a starting store, threading
the store state; returns the final store. -/
def runOps [DecidableEq K] (s : LruCache K V) :
    List (ProviderRequest K V) → LruCache K V
  | [] => s
  | op :: rest => runOps (LruProvider.call s op).2 rest

/-- The key an operation inserts, if any. -/
def ProviderRequest.insertedKey : ProviderRequest K V → Option K
  | .Get _ => none
  | .Insert k _ => some k

/-- Whether an operation is an `Insert`. -/
def ProviderRequest.isInsert : ProviderRequest K V → Bool
  | .Get _ => false
  | .Insert _ _ => true

/-- The `Transform` trait (src/transform.rs): a single pure operation
from a request to a derived output. -/
structure Transform (R O : Type) where
  transform : R → O

/-- `impl Transform<R> for ()` (src/transform.rs): the no-op
transformer, `transform(req) = req`. -/
def unitTransform (R : Type) : Transform R R :=
  ⟨fun req => req⟩

/-- `impl Transform<R> for F where F: Fn(R) -> O` (src/transform.rs):
any single-argument function is a transform, `transform(req) =
(self)(req)`. -/
def fnTransform (f : R → O) : Transform R O :=
  ⟨fun req => f req⟩

theorem lookup_eq_none_of_not_mem [DecidableEq K] {k : K} {l : List (K × V)}
    (h : k ∉ l.map Prod.fst) : lookup k l = none := by
  induction l with
  | nil => rfl
  | cons p rest ih =>
      obtain ⟨k', v⟩ := p
      simp only [List.map_cons, List.mem_cons, not_or] at h
      have hne : ¬(k' = k) := fun hc => h.1 hc.symm
      simp only [lookup, if_neg hne, ih h.2]

theorem exists_lookup_eq_some [DecidableEq K] {k : K} {l : List (K × V)}
    (h : k ∈ l.map Prod.fst) : ∃ v, lookup k l = some v := by
  induction l with
  | nil => simp at h
  | cons p rest ih =>
      obtain ⟨k', v⟩ := p
      by_cases hk : k' = k
      · exact ⟨v, by simp [lookup, hk]⟩
      · simp only [List.map_cons, List.mem_cons] at h
        rcases h with h | h
        · exact absurd h.symm hk
        · obtain ⟨w, hw⟩ := ih h
          exact ⟨w, by simp [lookup, hk, hw]⟩

theorem removeKey_of_not_mem [DecidableEq K] {k : K} {l : List (K × V)}
    (h : k ∉ l.map Prod.fst) : removeKey k l = l := by
  induction l with
  | nil => rfl
  | cons p rest ih =>
      obtain ⟨k', v⟩ := p
      simp only [List.map_cons, List.mem_cons, not_or] at h
      have hne : ¬(k' = k) := fun hc => h.1 hc.symm
      simp only [removeKey, if_neg hne, ih h.2]

theorem length_removeKey_le [DecidableEq K] (k : K) (l : List (K × V)) :
    (removeKey k l).length ≤ l.length := by
  induction l with
  | nil => simp [removeKey]
  | cons p rest ih =>
      obtain ⟨k', v⟩ := p
      by_cases hk : k' = k <;> simp [removeKey, hk] <;> omega

theorem length_removeKey_lt [DecidableEq K] {k : K} {l : List (K × V)} {v : V}
    (h : lookup k l = some v) : (removeKey k l).length < l.length := by
  induction l with
  | nil => simp [lookup] at h
  | cons p rest ih =>
      obtain ⟨k', w⟩ := p
      by_cases hk : k' = k
      · simp only [removeKey, if_pos hk, List.length_cons]
        exact Nat.lt_succ_of_le (length_removeKey_le k rest)
      · simp only [lookup, if_neg hk] at h
        simp only [removeKey, if_neg hk, List.length_cons]
        exact Nat.succ_lt_succ (ih h)

theorem mem_keys_removeKey [DecidableEq K] {x k : K} {l : List (K × V)}
    (h : x ∈ (removeKey k l).map Prod.fst) : x ∈ l.map Prod.fst := by
  induction l with
  | nil => simp [removeKey] at h
  | cons p rest ih =>
      obtain ⟨k', v⟩ := p
      by_cases hk : k' = k
      · simp only [removeKey, if_pos hk] at h
        simp [ih h]
      · simp only [removeKey, if_neg hk, List.map_cons, List.mem_cons] at h ⊢
        rcases h with h | h
        · exact Or.inl h
        · exact Or.inr (ih h)

theorem call_get_of_lookup_none [DecidableEq K] {s : LruCache K V} {k : K}
    (h : lookup k s.entries = none) :
    LruProvider.call s (ProviderRequest.Get k) = (ProviderResponse.NotFound, s) := by
  simp [LruProvider.call, LruCache.get, h]

theorem call_get_of_lookup_some [DecidableEq K] {s : LruCache K V} {k : K} {v : V}
    (h : lookup k s.entries = some v) :
    LruProvider.call s (ProviderRequest.Get k) =
      (ProviderResponse.Found v, ⟨s.cap, (k, v) :: removeKey k s.entries⟩) := by
  simp [LruProvider.call, LruCache.get, h]

theorem call_insert_eq [DecidableEq K] (s : LruCache K V) (k : K) (v : V) :
    LruProvider.call s (ProviderRequest.Insert k v) =
      (ProviderResponse.Found v,
        ⟨s.cap, ((k, v) :: removeKey k s.entries).take s.cap⟩) := rfl

theorem call_cap [DecidableEq K] (s : LruCache K V) (op : ProviderRequest K V) :
    ((LruProvider.call s op).2).cap = s.cap := by
  cases op with
  | Get k =>
      cases hl : lookup k s.entries with
      | none => rw [call_get_of_lookup_none hl]
      | some v => rw [call_get_of_lookup_some hl]
  | Insert k v => rfl

theorem runOps_cap [DecidableEq K] (ops : List (ProviderRequest K V)) :
    ∀ s : LruCache K V, (runOps s ops).cap = s.cap := by
  induction ops with
  | nil => intro s; rfl
  | cons op rest ih =>
      intro s
      rw [runOps, ih, call_cap]

theorem call_length_le [DecidableEq K] (s : LruCache K V)
    (op : ProviderRequest K V) (h : s.entries.length ≤ s.cap) :
    ((LruProvider.call s op).2).entries.length ≤ s.cap := by
  cases op with
  | Get k =>
      cases hl : lookup k s.entries with
      | none => rw [call_get_of_lookup_none hl]; exact h
      | some v =>
          rw [call_get_of_lookup_some hl]
          simp only [List.length_cons]
          exact le_trans (Nat.succ_le_of_lt (length_removeKey_lt hl)) h
  | Insert k v =>
      simp only [LruProvider.call, LruCache.put, List.length_take]
      exact min_le_left _ _

theorem runOps_length_le [DecidableEq K] (ops : List (ProviderRequest K V)) :
    ∀ s : LruCache K V, s.entries.length ≤ s.cap →
      (runOps s ops).entries.length ≤ (runOps s ops).cap := by
  induction ops with
  | nil => intro s h; simpa [runOps] using h
  | cons op rest ih =>
      intro s h
      rw [runOps]
      apply ih
      rw [call_cap]
      exact call_length_le s op h

/-- C2: Insert(k, v) always returns Found(v), echoing the inserted
value, on every store state; it never returns NotFound. -/
theorem insert_echoes_found [DecidableEq K] (s : LruCache K V) (k : K) (v : V) :
    (LruProvider.call s (ProviderRequest.Insert k v)).1 =
      ProviderResponse.Found v := rfl

/-- C7: the provider's error channel is statically uninhabited, and
every call returns a successful (`Ok`) result. -/
theorem call_never_fails :
    (∀ e : Infallible, False) ∧
      ∀ (s : LruCache Nat Nat) (req : ProviderRequest Nat Nat),
        ∃ resp, (LruProvider.callService s req).1 = Except.ok resp := by
  refine ⟨fun err => (nomatch err), fun s req => ⟨(LruProvider.call s req).1, rfl⟩⟩

/-- C8: the no-op transform (the unit implementation of `Transform`) is
the identity: `transform(x) = x` for every input. -/
theorem unit_transform_id (R : Type) (x : R) :
    (unitTransform R).transform x = x := rfl

/-- C9: a single-argument function `f` used as a `Transform` satisfies
`transform(r) = f(r)` for every input; in particular for doubling,
`transform(2) = 4`. -/
theorem fn_transform_applies :
    (∀ (R O : Type) (f : R → O) (r : R), (fnTransform f).transform r = f r) ∧
      (fnTransform (fun n : Nat => n * 2)).transform 2 = 4 :=
  ⟨fun _ _ _ _ => rfl, rfl⟩

/-- C10: `LruProvider::new` accepts every capacity, including 0, and
simply constructs the empty store with that capacity: it is a total
function performing no validation, so in particular capacity 0 is
neither rejected nor specially handled. -/
theorem new_accepts_any_capacity :
    (∀ C : Nat, (LruProvider.new Nat Nat C).cap = C ∧
        (LruProvider.new Nat Nat C).entries = []) ∧
      (LruProvider.new Nat Nat 0).cap = 0 :=
  ⟨fun _ => ⟨rfl, rfl⟩, rfl⟩

/-- C1: for every capacity C and every sequence of Insert operations
issued to a provider constructed with new(C), after any prefix of the
sequence (each such prefix being itself such a sequence) the number of
distinct keys held in the store never exceeds C. -/
theorem capacity_invariant (C : Nat) (ops : List (ProviderRequest Nat Nat))
    (_h : ∀ op ∈ ops, op.isInsert = true) :
    (((runOps (LruProvider.new Nat Nat C) ops).entries.map Prod.fst).dedup).length
      ≤ C := by
  have h1 : (runOps (LruProvider.new Nat Nat C) ops).entries.length ≤ C := by
    have h2 := runOps_length_le ops (LruProvider.new Nat Nat C)
      (by simp [LruProvider.new, LruCache.new])
    rwa [runOps_cap] at h2
  calc (((runOps (LruProvider.new Nat Nat C) ops).entries.map Prod.fst).dedup).length
      ≤ ((runOps (LruProvider.new Nat Nat C) ops).entries.map Prod.fst).length :=
        (List.dedup_sublist _).length_le
    _ = (runOps (LruProvider.new Nat Nat C) ops).entries.length :=
        List.length_map _ _
    _ ≤ C := h1

/-- Witness for C1 at capacity 1 and two distinct inserted keys. -/
theorem capacity_invariant_witness :
    (((runOps (LruProvider.new Nat Nat 1)
        [ProviderRequest.Insert 0 5, ProviderRequest.Insert 1 6]).entries.map
          Prod.fst).dedup).length ≤ 1 :=
  capacity_invariant 1 [ProviderRequest.Insert 0 5, ProviderRequest.Insert 1 6]
    (by decide)

/-- C5: on any store state of positive capacity (capacity is a positive
bound per the spec), Insert(k, v) immediately followed by Get(k) yields
Found(v) with the value equal to the one inserted. -/
theorem insert_then_get_round_trip [DecidableEq K] (s : LruCache K V) (k : K)
    (v : V) (hcap : 1 ≤ s.cap) :
    (LruProvider.call (LruProvider.call s (ProviderRequest.Insert k v)).2
        (ProviderRequest.Get k)).1 = ProviderResponse.Found v := by
  obtain ⟨n, hn⟩ : ∃ n, s.cap = n + 1 := ⟨s.cap - 1, by omega⟩
  have hput : (LruProvider.call s (ProviderRequest.Insert k v)).2 =
      ⟨s.cap, (k, v) :: (removeKey k s.entries).take n⟩ := by
    rw [call_insert_eq]
    simp [hn, List.take_succ_cons]
  rw [hput]
  have hl : lookup k ((k, v) :: (removeKey k s.entries).take n) = some v := by
    simp [lookup]
  rw [call_get_of_lookup_some hl]

/-- Witness for C5 at capacity 1, key 0, value 7. -/
theorem insert_then_get_round_trip_witness :
    1 ≤ (LruProvider.new Nat Nat 1).cap ∧
      (LruProvider.call (LruProvider.call (LruProvider.new Nat Nat 1)
          (ProviderRequest.Insert 0 7)).2 (ProviderRequest.Get 0)).1 =
        ProviderResponse.Found 7 :=
  ⟨by decide, insert_then_get_round_trip (LruProvider.new Nat Nat 1) 0 7 (by decide)⟩

theorem mem_of_lookup_eq_some [DecidableEq K] {k : K} {l : List (K × V)} {v : V}
    (h : lookup k l = some v) : k ∈ l.map Prod.fst := by
  by_contra hk
  rw [lookup_eq_none_of_not_mem hk] at h
  cases h

theorem mem_keys_call [DecidableEq K] {x : K} {s : LruCache K V}
    {op : ProviderRequest K V}
    (h : x ∈ ((LruProvider.call s op).2).entries.map Prod.fst) :
    x ∈ s.entries.map Prod.fst ∨ op.insertedKey = some x := by
  cases op with
  | Get k =>
      cases hl : lookup k s.entries with
      | none =>
          rw [call_get_of_lookup_none hl] at h
          exact Or.inl h
      | some v =>
          rw [call_get_of_lookup_some hl] at h
          simp only [List.map_cons, List.mem_cons] at h
          rcases h with h | h
          · exact Or.inl (h ▸ mem_of_lookup_eq_some hl)
          · exact Or.inl (mem_keys_removeKey h)
  | Insert k v =>
      rw [call_insert_eq] at h
      rw [List.map_take] at h
      have h2 : x ∈ ((k, v) :: removeKey k s.entries).map Prod.fst :=
        List.take_subset _ _ h
      simp only [List.map_cons, List.mem_cons] at h2
      rcases h2 with h2 | h2
      · right
        simp [ProviderRequest.insertedKey, h2]
      · exact Or.inl (mem_keys_removeKey h2)

theorem not_mem_keys_runOps [DecidableEq K] {k : K}
    (ops : List (ProviderRequest K V)) :
    ∀ s : LruCache K V, k ∉ s.entries.map Prod.fst →
      (∀ op ∈ ops, op.insertedKey ≠ some k) →
      k ∉ (runOps s ops).entries.map Prod.fst := by
  induction ops with
  | nil =>
      intro s h _
      simpa [runOps] using h
  | cons op rest ih =>
      intro s h hops
      rw [runOps]
      apply ih
      · intro hmem
        rcases mem_keys_call hmem with hmem | hmem
        · exact h hmem
        · exact hops op (List.mem_cons_self op rest) hmem
      · intro op2 h2
        exact hops op2 (List.mem_cons_of_mem _ h2)

/-- C6: Get(k) on a key that is not held in the store — in particular a
key never inserted along any history from a fresh provider, or one
evicted and not reinserted (hence absent) — returns NotFound. -/
theorem get_miss (k : Nat) :
    (∀ s : LruCache Nat Nat, k ∉ s.entries.map Prod.fst →
        (LruProvider.call s (ProviderRequest.Get k)).1 =
          ProviderResponse.NotFound) ∧
      ∀ (C : Nat) (ops : List (ProviderRequest Nat Nat)),
        (∀ op ∈ ops, op.insertedKey ≠ some k) →
          (LruProvider.call (runOps (LruProvider.new Nat Nat C) ops)
              (ProviderRequest.Get k)).1 = ProviderResponse.NotFound := by
  constructor
  · intro s h
    rw [call_get_of_lookup_none (lookup_eq_none_of_not_mem h)]
  · intro C ops hops
    have h := not_mem_keys_runOps ops (LruProvider.new Nat Nat C)
      (by simp [LruProvider.new, LruCache.new]) hops
    rw [call_get_of_lookup_none (lookup_eq_none_of_not_mem h)]

/-- Witness for C6: a never-present key misses on an empty store and on
a store that saw an unrelated insert and get. -/
theorem get_miss_witness :
    (LruProvider.call (LruCache.new Nat Nat 2) (ProviderRequest.Get 7)).1 =
        ProviderResponse.NotFound ∧
      (LruProvider.call (runOps (LruProvider.new Nat Nat 2)
          [ProviderRequest.Insert 0 5, ProviderRequest.Get 1])
        (ProviderRequest.Get 3)).1 = ProviderResponse.NotFound :=
  ⟨(get_miss 7).1 (LruCache.new Nat Nat 2) (by decide),
    (get_miss 3).2 2 [ProviderRequest.Insert 0 5, ProviderRequest.Get 1]
      (by decide)⟩

/-- C4: a Get hit refreshes recency: with capacity 2 and distinct keys
A, B, C, after Insert(A, a), Insert(B, b), Get(A), Insert(C, c) the key
B is evicted while A and C remain with their values. -/
theorem get_refreshes_recency [DecidableEq K] (A B C : K) (a b c : V)
    (hAB : A ≠ B) (hAC : A ≠ C) (hBC : B ≠ C) :
    (LruProvider.call (runOps (LruCache.new K V 2)
        [ProviderRequest.Insert A a, ProviderRequest.Insert B b,
          ProviderRequest.Get A, ProviderRequest.Insert C c])
      (ProviderRequest.Get B)).1 = ProviderResponse.NotFound ∧
    (LruProvider.call (runOps (LruCache.new K V 2)
        [ProviderRequest.Insert A a, ProviderRequest.Insert B b,
          ProviderRequest.Get A, ProviderRequest.Insert C c])
      (ProviderRequest.Get A)).1 = ProviderResponse.Found a ∧
    (LruProvider.call (runOps (LruCache.new K V 2)
        [ProviderRequest.Insert A a, ProviderRequest.Insert B b,
          ProviderRequest.Get A, ProviderRequest.Insert C c])
      (ProviderRequest.Get C)).1 = ProviderResponse.Found c := by
  have hBA : B ≠ A := Ne.symm hAB
  have hCA : C ≠ A := Ne.symm hAC
  have hCB : C ≠ B := Ne.symm hBC
  refine ⟨?_, ?_, ?_⟩ <;>
    simp [runOps, LruProvider.call, LruCache.get, LruCache.put, LruCache.new,
      lookup, removeKey, hAB, hAC, hBC, hBA, hCA, hCB]

/-- Witness for C4 with keys 0, 1, 2 and values 10, 20, 30. -/
theorem get_refreshes_recency_witness :
    (LruProvider.call (runOps (LruCache.new Nat Nat 2)
        [ProviderRequest.Insert 0 10, ProviderRequest.Insert 1 20,
          ProviderRequest.Get 0, ProviderRequest.Insert 2 30])
      (ProviderRequest.Get 1)).1 = ProviderResponse.NotFound ∧
    (LruProvider.call (runOps (LruCache.new Nat Nat 2)
        [ProviderRequest.Insert 0 10, ProviderRequest.Insert 1 20,
          ProviderRequest.Get 0, ProviderRequest.Insert 2 30])
      (ProviderRequest.Get 0)).1 = ProviderResponse.Found 10 ∧
    (LruProvider.call (runOps (LruCache.new Nat Nat 2)
        [ProviderRequest.Insert 0 10, ProviderRequest.Insert 1 20,
          ProviderRequest.Get 0, ProviderRequest.Insert 2 30])
      (ProviderRequest.Get 2)).1 = ProviderResponse.Found 30 :=
  get_refreshes_recency 0 1 2 10 20 30 (by decide) (by decide) (by decide)

theorem take_append_take {α : Type} (Y : List α) :
    ∀ (X : List α) (n m : Nat), n ≤ m →
      (X ++ Y.take m).take n = (X ++ Y).take n := by
  intro X
  induction X with
  | nil =>
      intro n m h
      simp only [List.nil_append]
      rw [List.take_take, min_eq_left h]
  | cons x X ih =>
      intro n m h
      cases n with
      | zero => simp
      | succ n =>
          simp only [List.cons_append, List.take_succ_cons]
          rw [ih n m (Nat.le_of_succ_le h)]

theorem runOps_inserts_entries [DecidableEq K] :
    ∀ (ps : List (K × V)) (s : LruCache K V),
      (ps.map Prod.fst).Nodup →
      (∀ p ∈ ps, p.1 ∉ s.entries.map Prod.fst) →
      s.entries.length ≤ s.cap →
      (runOps s (ps.map fun p => ProviderRequest.Insert p.1 p.2)).entries =
        (ps.reverse ++ s.entries).take s.cap := by
  intro ps
  induction ps with
  | nil =>
      intro s _ _ hlen
      simp only [List.map_nil, runOps, List.reverse_nil, List.nil_append]
      exact (List.take_of_length_le hlen).symm
  | cons p ps ih =>
      intro s hnodup hdisj hlen
      obtain ⟨k, v⟩ := p
      have hkey : k ∉ s.entries.map Prod.fst :=
        hdisj (k, v) (List.mem_cons_self _ _)
      have hcall : (LruProvider.call s (ProviderRequest.Insert k v)).2 =
          ⟨s.cap, ((k, v) :: s.entries).take s.cap⟩ := by
        rw [call_insert_eq, removeKey_of_not_mem hkey]
      simp only [List.map_cons, runOps, hcall]
      simp only [List.map_cons, List.nodup_cons] at hnodup
      have hih := ih ⟨s.cap, ((k, v) :: s.entries).take s.cap⟩ hnodup.2
        (by
          intro q hq hmem
          simp only [List.map_take] at hmem
          have hmem2 : q.1 ∈ ((k, v) :: s.entries).map Prod.fst :=
            List.take_subset _ _ hmem
          simp only [List.map_cons, List.mem_cons] at hmem2
          rcases hmem2 with hmem2 | hmem2
          · exact hnodup.1 (hmem2 ▸ List.mem_map_of_mem Prod.fst hq)
          · exact hdisj q (List.mem_cons_of_mem _ hq) hmem2)
        (by
          show (((k, v) :: s.entries).take s.cap).length ≤ s.cap
          rw [List.length_take]
          exact Nat.min_le_left _ _)
      rw [hih]
      simp only [List.reverse_cons, List.append_assoc, List.singleton_append]
      exact take_append_take ((k, v) :: s.entries) ps.reverse s.cap s.cap
        (Nat.le_refl s.cap)

theorem map_fst_map_pair {α β : Type} (g : α → β) (l : List α) :
    (l.map fun k => (k, g k)).map Prod.fst = l := by
  induction l with
  | nil => rfl
  | cons x l ih => simp [ih]

/-- C3: for every capacity C ≥ 1, inserting C+1 distinct keys
k1 :: rest (rest of length C) in order into a fresh provider of
capacity C, with no intervening Gets, evicts k1 and retains every key
of rest: Get(k1) answers NotFound and Get(k) answers Found for each k
in rest. -/
theorem recency_eviction (C : Nat) (_hC : 1 ≤ C) (k1 : Nat) (rest : List Nat)
    (f : Nat → Nat) (hlen : rest.length = C) (hnodup : (k1 :: rest).Nodup) :
    (LruProvider.call (runOps (LruProvider.new Nat Nat C)
        ((k1 :: rest).map fun k => ProviderRequest.Insert k (f k)))
      (ProviderRequest.Get k1)).1 = ProviderResponse.NotFound ∧
    ∀ k ∈ rest, ((LruProvider.call (runOps (LruProvider.new Nat Nat C)
        ((k1 :: rest).map fun k => ProviderRequest.Insert k (f k)))
      (ProviderRequest.Get k)).1).isFound = true := by
  have hops : ((k1 :: rest).map fun k => ProviderRequest.Insert k (f k)) =
      (((k1 :: rest).map fun k => (k, f k)).map
        fun p => ProviderRequest.Insert p.1 p.2) := by
    simp [List.map_map]
  have hkeys : (((k1 :: rest).map fun k => (k, f k)).map Prod.fst).Nodup := by
    rw [map_fst_map_pair]
    exact hnodup
  have hent : (runOps (LruProvider.new Nat Nat C)
      ((k1 :: rest).map fun k => ProviderRequest.Insert k (f k))).entries =
      (rest.map fun k => (k, f k)).reverse := by
    rw [hops, runOps_inserts_entries ((k1 :: rest).map fun k => (k, f k))
      (LruProvider.new Nat Nat C) hkeys
      (by simp [LruProvider.new, LruCache.new])
      (by simp [LruProvider.new, LruCache.new])]
    simp only [LruProvider.new, LruCache.new, List.append_nil, List.map_cons,
      List.reverse_cons]
    have hlen2 : ((rest.map fun k => (k, f k)).reverse).length = C := by
      simp [hlen]
    exact List.take_left' hlen2
  have hkeysent : (runOps (LruProvider.new Nat Nat C)
      ((k1 :: rest).map fun k => ProviderRequest.Insert k (f k))).entries.map
        Prod.fst = rest.reverse := by
    rw [hent, List.map_reverse, map_fst_map_pair]
  rw [List.nodup_cons] at hnodup
  constructor
  · have hnone : lookup k1 (runOps (LruProvider.new Nat Nat C)
        ((k1 :: rest).map fun k => ProviderRequest.Insert k (f k))).entries =
        none := by
      apply lookup_eq_none_of_not_mem
      rw [hkeysent, List.mem_reverse]
      exact hnodup.1
    rw [call_get_of_lookup_none hnone]
  · intro k hk
    have hmem : k ∈ (runOps (LruProvider.new Nat Nat C)
        ((k1 :: rest).map fun k => ProviderRequest.Insert k (f k))).entries.map
          Prod.fst := by
      rw [hkeysent, List.mem_reverse]
      exact hk
    obtain ⟨w, hw⟩ := exists_lookup_eq_some hmem
    rw [call_get_of_lookup_some hw]
    rfl

/-- Witness for C3 at capacity 1 with keys 0 then 1 and value function
doubling. -/
theorem recency_eviction_witness :
    ((LruProvider.call (runOps (LruProvider.new Nat Nat 1)
        (([0, 1] : List Nat).map fun k => ProviderRequest.Insert k (2 * k)))
      (ProviderRequest.Get 0)).1 = ProviderResponse.NotFound ∧
    ∀ k ∈ ([1] : List Nat), ((LruProvider.call (runOps (LruProvider.new Nat Nat 1)
        (([0, 1] : List Nat).map fun k => ProviderRequest.Insert k (2 * k)))
      (ProviderRequest.Get k)).1).isFound = true) :=
  recency_eviction 1 (by decide) 0 [1] (fun k => 2 * k) (by decide) (by decide)

end TowerCache
